import Mathlib

/-!
A verification development for `githubfuse.py`, a FUSE filesystem that lazily
materializes GitHub users and repositories under a local cache directory.

The Python source is shallowly embedded below:

* strings are `List Char` (`Str`);
* `re.sub("@\\w+", "", s)` is `subAtWord`, `re.findall("@(\\w+)", s)[0]` is
  `firstAtWord`, and `re.findall("(.+)@", s)[0]` is `beforeLastAt` (the group
  of the first match of that pattern is the text before the last `'@'`;
  modelled for strings without a newline, which `.` does not match — FUSE
  paths never contain newlines);
* the local filesystem is an abstract record `FS` of `present` (`os.path.exists`),
  `stat` (`os.stat`) and `listdir` (`os.listdir`), keyed by exact path strings;
* the GitHub client's paginated repository listing is an oracle
  `pages : Str → Nat → List Str` (user → page index → repository full names),
  and `functools.lru_cache(maxsize=128)` on `get_repos_user` is an explicit
  recency-ordered association list of capacity 128;
* `os.system("git clone …")` is an oracle `cloneRun` mapping the clone's
  arguments and the current filesystem to the filesystem after the attempt;
  its exit status is not part of the model because the Python code discards
  the return value of `os.system`;
* a Python exception escaping an operation is `Option.none`;
* observable side effects (remote listing calls, clone invocations) are
  recorded as an `Event` trace.
-/

/-- Strings of the embedded program are lists of characters. -/
abbrev Str := List Char

/-- Python's `\w` character class (ASCII range): letters, digits, underscore. -/
def isWordChar (c : Char) : Bool :=
  c.isAlphanum || c = '_'

/-- Number of `'/'` characters in a string: Python's `path.count("/")`. -/
def countSlash (p : Str) : Nat :=
  p.countP (fun c => c = '/')

/-- Python's `path.lstrip("/")`. -/
def lstripSlash (p : Str) : Str :=
  p.dropWhile (fun c => c = '/')

/-- Python's `path.strip("/")`: strip `'/'` from both ends. -/
def stripSlashes (p : Str) : Str :=
  ((p.dropWhile (fun c => c = '/')).reverse.dropWhile (fun c => c = '/')).reverse

/-- Worker for `re.sub("@\\w+", "", s)`.  The flag records whether the scanner
is inside the word-character run of a match still being deleted.  An `'@'`
followed by a word character starts a deletion; an `'@'` not followed by a
word character is literal text, as is any other character outside a run. -/
def subAux : Bool → List Char → List Char
  | _, [] => []
  | inWord, a :: rest =>
    if inWord && isWordChar a then subAux true rest
    else if a = '@' then
      match rest with
      | [] => ['@']
      | c :: rest2 =>
        if isWordChar c then subAux true rest2 else '@' :: subAux false (c :: rest2)
    else a :: subAux false rest

/-- Python's `re.sub("@\\w+", "", s)`: delete every `'@'` followed by a
maximal nonempty run of word characters; all other text is kept literally. -/
def subAtWord (l : List Char) : List Char :=
  subAux false l

/-- Python's `re.findall("@(\\w+)", s)` first match group (`ms[0]`): the word
run after the first `'@'` that is followed by at least one word character;
`none` when the pattern has no match. -/
def firstAtWord : List Char → Option (List Char)
  | [] => none
  | a :: rest =>
    if a = '@' then
      match rest with
      | [] => none
      | c :: cs =>
        if isWordChar c then some ((c :: cs).takeWhile isWordChar)
        else firstAtWord (c :: cs)
    else firstAtWord rest

/-- Take of `p` up to the index of its last `'@'`, as `some`; `none`
when `p` has no `'@'`.  This is the group of the first match of
`re.findall("(.+)@", p)` whenever that group is nonempty (greedy `.+`
backtracks to the last `'@'`); the match fails exactly when the result here
is `none` or `some []` (newline-free strings). -/
def beforeLastAt : List Char → Option (List Char)
  | [] => none
  | a :: rest =>
    match beforeLastAt rest with
    | some q => some (a :: q)
    | none => if a = '@' then some [] else none

/-- Python's `os.path.join(a, b)` for POSIX paths (the only cases used:
`b` is never absolute after the caller's `lstrip("/")`, but the absolute
case is kept for fidelity). -/
def joinPath (a b : Str) : Str :=
  if b.head? = some '/' then b
  else if a = [] ∨ a.getLast? = some '/' then a ++ b
  else a ++ '/' :: b

/-- Resolver `GithubOperations._full_path`: strip every `@<word-run>` ref qualifier
(`re.sub`), strip leading slashes, and join onto the cache root. -/
def _full_path (root : Str) (path : Str) : Str :=
  joinPath root (lstripSlash (subAtWord path))

/-- The metadata record mirrored out of `os.stat` by `getattr`'s materialized
branch (the eight `st_*` keys the code copies). -/
structure StatRec where
  st_atime : Nat
  st_ctime : Nat
  st_gid : Nat
  st_mode : Nat
  st_mtime : Nat
  st_nlink : Nat
  st_size : Nat
  st_uid : Nat
deriving DecidableEq

/-- The dict built by `getattr` from a real `os.stat` result, in the key order
of the source. -/
def StatRec.dict (s : StatRec) : List (String × Nat) :=
  [("st_atime", s.st_atime), ("st_ctime", s.st_ctime), ("st_gid", s.st_gid),
   ("st_mode", s.st_mode), ("st_mtime", s.st_mtime), ("st_nlink", s.st_nlink),
   ("st_size", s.st_size), ("st_uid", s.st_uid)]

/-- Constant `stat.S_IFDIR`: the directory bit of `st_mode`. -/
def S_IFDIR : Nat := 16384

/-- Constant `stat.S_IFMT`: the file-type mask of `st_mode`. -/
def S_IFMT : Nat := 61440

/-- Constant `stat.S_IFREG`: the regular-file bits of `st_mode`. -/
def S_IFREG : Nat := 32768

/-- The class `FakeStat`.  All eight `st_*` attributes are class attributes
(`st_mode = 0o755`, everything else `0`); an assignment through `self`
creates an entry in the instance `__dict__`, modelled as `inst`. -/
structure FakeStat where
  inst : List (String × Nat)

/-- Attribute read `self.st_mode`: the instance `__dict__` entry if present,
else the class attribute `0o755`. -/
def FakeStat.mode_value (f : FakeStat) : Nat :=
  (f.inst.lookup ("st_mode")).getD 493

/-- Method `FakeStat.set_isdir`: `self.st_mode |= stat.S_IFDIR`, which writes an
instance attribute shadowing the class attribute. -/
def FakeStat.set_isdir (f : FakeStat) : FakeStat :=
  ⟨("st_mode", f.mode_value ||| S_IFDIR) :: f.inst⟩

/-- Substring test for the two-character string `st`: Python's `'st' in x`. -/
def containsST : List Char → Bool
  | [] => false
  | a :: rest => (a = 's' && rest.head? = some 't') || containsST rest

/-- Local storage as observed by the operations: existence, stat metadata and
directory entries, keyed by exact path strings. -/
structure FS where
  present : Str → Bool
  stat : Str → StatRec
  listdir : Str → List Str

/-- Operation `GithubOperations.getattr`: real metadata when the resolved path exists;
otherwise a `FakeStat` dict.  The guard `path.count("/") >= 0` of the source
is kept verbatim (it holds for every path), and the returned dict is the
comprehension over the instance `__dict__` filtered by `'st' in key` — after
`set_isdir` that dict holds only the `st_mode` entry. -/
def getattr (fs : FS) (root : Str) (path : Str) : List (String × Nat) :=
  let fp := _full_path root path
  if fs.present fp then (fs.stat fp).dict
  else
    let fakestat : FakeStat := ⟨[]⟩
    let fakestat := if 0 ≤ countSlash path then fakestat.set_isdir else fakestat
    fakestat.inst.filter (fun kv => containsST kv.1.toList)

/-- Reading a returned attribute dict the way the FUSE bridge does: the C
`stat` struct is zero-initialized and the dict's entries are copied over it,
so a key missing from the dict is observed as `0`. -/
def dictGet (d : List (String × Nat)) (k : String) : Nat :=
  (d.lookup k).getD 0

/-- Depth of a virtual path: its number of nonempty `/`-separated segments
(the mount root has depth 0, `/alice` depth 1, `/alice/repo` depth 2). -/
def depthOf (path : Str) : Nat :=
  ((List.splitOn '/' path).filter (fun s => ¬ s = [])).length

/-- The pagination loop body of `get_repos_user`: `for i in range(20)` reads
page `i`, stops at the first empty page, and concatenates the pages read.
The first argument is the remaining fuel (loop iterations), the second the
current page index. -/
def collectPages (pg : Nat → List Str) : Nat → Nat → List Str
  | 0, _ => []
  | fuel + 1, i => if pg i = [] then [] else pg i ++ collectPages pg fuel (i + 1)

/-- Function `get_repos_user` without its cache decorator: concatenate the user's
repository pages, reading at most 20 pages and stopping at the first empty
one.  Repositories are represented by their full names (`owner/name`). -/
def get_repos_user (pages : Str → Nat → List Str) (user : Str) : List Str :=
  collectPages (pages user) 20 0

/-- Capacity of the `functools.lru_cache(maxsize=128)` on `get_repos_user`. -/
def LRU_MAXSIZE : Nat := 128

/-- Cache lookup: the value stored for a key, if any.  The list is ordered
most-recently-used first. -/
def lruLookup (c : List (Str × List Str)) (k : Str) : Option (List Str) :=
  (c.find? (fun kv => kv.1 = k)).map (fun kv => kv.2)

/-- Cache hit: the entry moves to the most-recently-used position. -/
def lruTouch (c : List (Str × List Str)) (k : Str) (v : List Str) :
    List (Str × List Str) :=
  (k, v) :: c.filter (fun kv => ¬ kv.1 = k)

/-- Cache miss: the new entry is inserted most-recently-used and the least
recently used entries beyond the capacity are evicted. -/
def lruInsert (c : List (Str × List Str)) (k : Str) (v : List Str) :
    List (Str × List Str) :=
  ((k, v) :: c).take LRU_MAXSIZE

/-- Observable side effects of a `readdir` call: a remote repository-listing
call for a user, or a `git clone` invocation with its repository coordinate,
target directory and branch. -/
inductive Event where
  | remote (user : Str)
  | clone (repopath : Str) (target : Str) (branch : Str)
deriving DecidableEq

/-- The world a `readdir` call runs in: the cache root, local storage, the
memoization cache of `get_repos_user`, the remote pagination oracle, and the
clone oracle (the local filesystem after a `git clone repopath target
-b branch` attempt — success or failure is whatever the oracle says the
filesystem looks like afterwards; the exit status is discarded by the code). -/
structure World where
  root : Str
  fs : FS
  cache : List (Str × List Str)
  pages : Str → Nat → List Str
  cloneRun : Str → Str → Str → FS → FS

/-- Result of a successful `readdir`: the yielded entries (deduplicated), the
world afterwards, and the trace of remote/clone events. -/
structure RD where
  entries : List Str
  world : World
  events : List Event

/-- Evaluation of `repo.full_name.split("/")[1]`: the repository name of a full name;
`none` models the `IndexError` when the full name has no `'/'`. -/
def seg1 (s : Str) : Option Str :=
  (List.splitOn '/' s)[1]?

/-- The depth-1 arm of `readdir`: when the (lstripped) path has no `'/'`,
call the cached `get_repos_user` on `path.strip("/")` and turn each full
name into its repository directory name.  Returns the names to append, the
world (with the cache updated) and the remote-call events; `none` models an
exception from `full_name.split("/")[1]`. -/
def reposStep (w : World) (p : Str) : Option (List Str × World × List Event) :=
  if countSlash p = 0 then
    match lruLookup w.cache (stripSlashes p) with
    | some v =>
      match v.mapM seg1 with
      | some names => some (names, { w with cache := lruTouch w.cache (stripSlashes p) v }, [])
      | none => none
    | none =>
      match (get_repos_user w.pages (stripSlashes p)).mapM seg1 with
      | some names =>
        some (names,
              { w with cache := (lruInsert w.cache (stripSlashes p)
                  (get_repos_user w.pages (stripSlashes p))) },
              [Event.remote (stripSlashes p)])
      | none => none
  else some ([], w, [])

/-- The `repopath` computed before a clone: `path` itself when it has no
`'@'`, otherwise `re.findall("(.+)@", path)[0]` — the text before the last
`'@'`; `none` models the `IndexError` when that pattern has no match (the
only `'@'` is the first character). -/
def repopathOf (p : Str) : Option Str :=
  if '@' ∈ p then
    match beforeLastAt p with
    | some q => if q = [] then none else some q
    | none => none
  else some p

/-- The clone arm of `readdir`: when the resolved path does not exist and the
(lstripped) path has exactly one `'/'`, shell out to `git clone` with the
parsed repository coordinate and branch.  The exit status is discarded. -/
def cloneStep (w : World) (p fp branch : Str) : Option (World × List Event) :=
  if w.fs.present fp = false ∧ countSlash p = 1 then
    match repopathOf p with
    | some repopath =>
      some ({ w with fs := w.cloneRun repopath fp branch w.fs },
            [Event.clone repopath fp branch])
    | none => none
  else some (w, [])

/-- The entry `"."`. -/
def dotE : Str := ['.']

/-- The entry `".."`. -/
def dotdotE : Str := ['.', '.']

/-- The hardcoded default branch of the source: `branchname = "master"`. -/
def masterBranch : Str := ['m', 'a', 's', 't', 'e', 'r']

/-- The real directory entries contributed by the resolved path at the end of
`readdir`: `if os.path.exists(full_path): dirents.extend(os.listdir(full_path))`. -/
def fsListIf (fs : FS) (p : Str) : List Str :=
  if fs.present p then fs.listdir p else []

/-- Operation `GithubOperations.readdir`.  Entries start as `['.', '..']`; the resolved
path and the branch (first `@<word-run>` of the lstripped path, defaulting to
`"master"`) are computed up front; the mount root lists local storage only;
otherwise the depth-1 arm may add remote repository names, the clone arm may
run `git clone`, and whatever now exists at the resolved path contributes its
real directory entries; the final listing is deduplicated (`set(dirents)`).
`none` models a Python exception escaping the call. -/
def readdir (w : World) (path : Str) : Option RD :=
  let fp := _full_path w.root path
  let p := lstripSlash path
  let branchname := (firstAtWord p).getD masterBranch
  if p = [] then
    some ⟨([dotE, dotdotE] ++ w.fs.listdir fp).dedup, w, []⟩
  else
    (reposStep w p).bind (fun nwe =>
      (cloneStep nwe.2.1 p fp branchname).bind (fun we =>
        some ⟨([dotE, dotdotE] ++ nwe.1 ++ fsListIf we.1.fs fp).dedup,
              we.1, nwe.2.2 ++ we.2⟩))

/-! ### Lemmas about the embedded string operations -/

theorem isWordChar_ne_slash {c : Char} (h : isWordChar c = true) : ¬ c = '/' := by
  intro hc
  rw [hc] at h
  exact absurd h (by decide)

theorem isWordChar_ne_at {c : Char} (h : isWordChar c = true) : ¬ c = '@' := by
  intro hc
  rw [hc] at h
  exact absurd h (by decide)

theorem subAux_false_cons_ne {a : Char} (l : List Char) (ha : ¬ a = '@') :
    subAux false (a :: l) = a :: subAux false l := by
  cases l <;> simp [subAux, ha]

theorem subAux_append_not_at {l : List Char} (m : List Char) (h : '@' ∉ l) :
    subAux false (l ++ m) = l ++ subAux false m := by
  induction l with
  | nil => rfl
  | cons a t ih =>
    have ha : ¬ a = '@' := by
      intro hc
      exact h (by simp [hc])
    have ht : '@' ∉ t := fun hc => h (List.mem_cons_of_mem _ hc)
    rw [List.cons_append, subAux_false_cons_ne _ ha, ih ht]
    simp

theorem subAux_false_of_not_at {l : List Char} (h : '@' ∉ l) : subAux false l = l := by
  have h2 := subAux_append_not_at (l := l) [] h
  simp only [List.append_nil, show subAux false [] = ([] : List Char) from rfl] at h2
  exact h2

theorem subAux_true_cons_word {a : Char} (l : List Char) (ha : isWordChar a = true) :
    subAux true (a :: l) = subAux true l := by
  cases l <;> simp [subAux, ha]

theorem subAux_true_word_append {cs : List Char} (m : List Char)
    (h : ∀ c ∈ cs, isWordChar c = true) :
    subAux true (cs ++ m) = subAux true m := by
  induction cs with
  | nil => rfl
  | cons c t ih =>
    have hc : isWordChar c = true := h c (by simp)
    rw [List.cons_append, subAux_true_cons_word _ hc]
    exact ih (fun x hx => h x (by simp [hx]))

theorem subAux_true_eq_false {m : List Char}
    (h : ∀ a ∈ m.head?, isWordChar a = false) : subAux true m = subAux false m := by
  cases m with
  | nil => rfl
  | cons a t =>
    have ha : isWordChar a = false := h a rfl
    cases t <;> simp [subAux, ha]

theorem subAux_strip_ref {r m : List Char} (hr : r ≠ []) (hw : ∀ c ∈ r, isWordChar c = true)
    (hm : ∀ a ∈ m.head?, isWordChar a = false) :
    subAux false ('@' :: (r ++ m)) = subAux false m := by
  obtain ⟨c, cs, rfl⟩ := List.exists_cons_of_ne_nil hr
  have hc : isWordChar c = true := hw c (by simp)
  show subAux false ('@' :: (c :: (cs ++ m))) = subAux false m
  rw [show subAux false ('@' :: (c :: (cs ++ m))) = subAux true (cs ++ m) by simp [subAux, hc]]
  rw [subAux_true_word_append m (fun x hx => hw x (by simp [hx])), subAux_true_eq_false hm]

theorem subAtWord_of_not_at {l : List Char} (h : '@' ∉ l) : subAtWord l = l :=
  subAux_false_of_not_at h

theorem subAtWord_strip_ref {l r m : List Char} (hl : '@' ∉ l) (hr : r ≠ [])
    (hw : ∀ c ∈ r, isWordChar c = true) (hm : ∀ a ∈ m.head?, isWordChar a = false)
    (hmA : '@' ∉ m) :
    subAtWord (l ++ '@' :: (r ++ m)) = l ++ m := by
  unfold subAtWord
  rw [subAux_append_not_at _ hl]
  rw [subAux_strip_ref hr hw hm, subAux_false_of_not_at hmA]

theorem firstAtWord_cons_ne {a : Char} (l : List Char) (ha : ¬ a = '@') :
    firstAtWord (a :: l) = firstAtWord l := by
  cases l <;> simp [firstAtWord, ha]

theorem firstAtWord_append {l m : List Char} (h : '@' ∉ l) :
    firstAtWord (l ++ m) = firstAtWord m := by
  induction l with
  | nil => rfl
  | cons a t ih =>
    have ha : ¬ a = '@' := by
      intro hc
      exact h (by simp [hc])
    rw [List.cons_append, firstAtWord_cons_ne _ ha, ih (fun hc => h (List.mem_cons_of_mem _ hc))]

theorem firstAtWord_of_not_at {l : List Char} (h : '@' ∉ l) : firstAtWord l = none := by
  have := firstAtWord_append (l := l) (m := []) h
  simpa using this

theorem firstAtWord_ref {r : List Char} (hr : r ≠ []) (hw : ∀ c ∈ r, isWordChar c = true) :
    firstAtWord ('@' :: r) = some r := by
  obtain ⟨c, cs, rfl⟩ := List.exists_cons_of_ne_nil hr
  have hc : isWordChar c = true := hw c (by simp)
  show firstAtWord ('@' :: c :: cs) = some (c :: cs)
  rw [show firstAtWord ('@' :: c :: cs) = some ((c :: cs).takeWhile isWordChar) by
    simp [firstAtWord, hc]]
  rw [List.takeWhile_eq_self_iff.mpr hw]

theorem beforeLastAt_of_not_at {l : List Char} (h : '@' ∉ l) : beforeLastAt l = none := by
  induction l with
  | nil => rfl
  | cons a t ih =>
    have ha : ¬ a = '@' := by
      intro hc
      exact h (by simp [hc])
    have ht := ih (fun hc => h (List.mem_cons_of_mem _ hc))
    simp [beforeLastAt, ht, ha]

theorem beforeLastAt_append {l r : List Char} (h : '@' ∉ r) :
    beforeLastAt (l ++ '@' :: r) = some l := by
  induction l with
  | nil => simp [beforeLastAt, beforeLastAt_of_not_at h]
  | cons a t ih => simp [beforeLastAt, ih]

theorem countSlash_eq_zero {l : Str} (h : '/' ∉ l) : countSlash l = 0 := by
  refine List.countP_eq_zero.mpr ?_
  intro a ha hc
  simp only [decide_eq_true_eq] at hc
  exact h (hc ▸ ha)

theorem countSlash_append (l m : Str) : countSlash (l ++ m) = countSlash l + countSlash m :=
  List.countP_append _ l m

theorem countSlash_cons_slash (l : Str) : countSlash ('/' :: l) = countSlash l + 1 := by
  simp [countSlash, List.countP_cons]

theorem lstripSlash_cons_ne {a : Char} (l : Str) (ha : ¬ a = '/') :
    lstripSlash (a :: l) = a :: l := by
  simp [lstripSlash, List.dropWhile_cons, ha]

theorem lstripSlash_cons_slash (l : Str) : lstripSlash ('/' :: l) = lstripSlash l := by
  simp [lstripSlash, List.dropWhile_cons]

theorem dropWhile_slash_of_not_mem {l : Str} (h : '/' ∉ l) :
    l.dropWhile (fun c => c = '/') = l := by
  cases l with
  | nil => rfl
  | cons a t =>
    have ha : ¬ a = '/' := by
      intro hc
      exact h (by simp [hc])
    simp [List.dropWhile_cons, ha]

theorem stripSlashes_of_not_mem {l : Str} (h : '/' ∉ l) : stripSlashes l = l := by
  unfold stripSlashes
  rw [dropWhile_slash_of_not_mem h,
      dropWhile_slash_of_not_mem (by simpa using h), List.reverse_reverse]

theorem mapM_option_eq_filterMap {α β : Type} (f : α → Option β) {l : List α}
    (h : ∀ x ∈ l, (f x).isSome = true) : l.mapM f = some (l.filterMap f) := by
  induction l with
  | nil => rfl
  | cons a t ih =>
    obtain ⟨b, hb⟩ := Option.isSome_iff_exists.mp (h a (by simp))
    rw [List.mapM_cons, hb, ih (fun x hx => h x (by simp [hx]))]
    simp [List.filterMap_cons, hb]

theorem toFinset_dedup_eq {α : Type} [DecidableEq α] (l : List α) :
    l.dedup.toFinset = l.toFinset := by
  ext a
  simp [List.mem_toFinset, List.mem_dedup]

theorem lruLookup_insert (c : List (Str × List Str)) (k : Str) (v : List Str) :
    lruLookup (lruInsert c k v) k = some v := by
  simp [lruLookup, lruInsert, LRU_MAXSIZE, List.take_succ_cons, List.find?_cons_of_pos]

/-! ### Step lemmas for the `readdir` state machine -/

theorem reposStep_not_depth1 (w : World) (p : Str) (h : ¬ countSlash p = 0) :
    reposStep w p = some ([], w, []) := by
  simp [reposStep, h]

theorem cloneStep_run {w : World} {p fp branch rp : Str} (habs : w.fs.present fp = false)
    (hc : countSlash p = 1) (hrp : repopathOf p = some rp) :
    cloneStep w p fp branch =
      some ({ w with fs := w.cloneRun rp fp branch w.fs }, [Event.clone rp fp branch]) := by
  simp [cloneStep, habs, hc, hrp]

theorem cloneStep_present {w : World} (p fp branch : Str) (hpres : w.fs.present fp = true) :
    cloneStep w p fp branch = some (w, []) := by
  simp [cloneStep, hpres]

theorem cloneStep_not_depth2 {w : World} (p fp branch : Str) (h : ¬ countSlash p = 1) :
    cloneStep w p fp branch = some (w, []) := by
  simp [cloneStep, h]

theorem repopathOf_no_at {p : Str} (h : '@' ∉ p) : repopathOf p = some p := by
  simp [repopathOf, h]

theorem repopathOf_ref {l r : Str} (hl : l ≠ []) (hr : '@' ∉ r) :
    repopathOf (l ++ '@' :: r) = some l := by
  have hm : '@' ∈ l ++ '@' :: r := by simp
  simp [repopathOf, hm, beforeLastAt_append hr, hl]

/-! ### The depth-2 virtual path family of the specification -/

/-- The optional `@<ref>` qualifier appended to the repository segment. -/
def refSuffix : Option Str → Str
  | none => []
  | some r => '@' :: r

/-- The repository coordinate `user/repo` (also the clone's `repopath`). -/
def coord (user repo : Str) : Str := user ++ '/' :: repo

/-- The virtual path `/{user}/{repo}` or `/{user}/{repo}@{ref}`. -/
def refPath (user repo : Str) (refo : Option Str) : Str :=
  ('/' :: user) ++ ('/' :: repo) ++ refSuffix refo

/-- A well-formed identity or repository segment: nonempty, no separator, no
ref qualifier character. -/
abbrev GoodSeg (s : Str) : Prop := s ≠ [] ∧ '/' ∉ s ∧ '@' ∉ s

/-- A well-formed optional ref: nonempty and made of word characters (the
shape `re.findall("@(\\w+)", path)` parses). -/
def GoodRef : Option Str → Prop
  | none => True
  | some r => r ≠ [] ∧ ∀ c ∈ r, isWordChar c = true

theorem GoodRef.not_slash {r : Str} (h : GoodRef (some r)) : '/' ∉ r := by
  intro hc
  exact isWordChar_ne_slash (h.2 '/' hc) rfl

theorem GoodRef.not_at {r : Str} (h : GoodRef (some r)) : '@' ∉ r := by
  intro hc
  exact isWordChar_ne_at (h.2 '@' hc) rfl

theorem coord_ne_nil {user repo : Str} (hu : user ≠ []) : coord user repo ≠ [] := by
  obtain ⟨u0, us, rfl⟩ := List.exists_cons_of_ne_nil hu
  simp [coord]

theorem coord_not_at {user repo : Str} (hu : '@' ∉ user) (hr : '@' ∉ repo) :
    '@' ∉ coord user repo := by
  intro hc
  rcases List.mem_append.mp hc with h | h
  · exact hu h
  · rcases List.mem_cons.mp h with h | h
    · exact absurd h (by decide)
    · exact hr h

theorem countSlash_coord {user repo : Str} (hu : '/' ∉ user) (hr : '/' ∉ repo) :
    countSlash (coord user repo) = 1 := by
  rw [coord, countSlash_append, countSlash_eq_zero hu, countSlash_cons_slash,
      countSlash_eq_zero hr]

theorem lstripSlash_refPath {user repo : Str} (refo : Option Str) (hu : GoodSeg user) :
    lstripSlash (refPath user repo refo) = coord user repo ++ refSuffix refo := by
  obtain ⟨u0, us, rfl⟩ := List.exists_cons_of_ne_nil hu.1
  have hu0 : ¬ u0 = '/' := fun hc => hu.2.1 (by simp [hc])
  show lstripSlash (('/' :: (u0 :: us)) ++ ('/' :: repo) ++ refSuffix refo) = _
  rw [show ('/' :: (u0 :: us)) ++ ('/' :: repo) ++ refSuffix refo =
        '/' :: (u0 :: (us ++ '/' :: repo ++ refSuffix refo)) by simp,
      lstripSlash_cons_slash, lstripSlash_cons_ne _ hu0]
  simp [coord]

theorem countSlash_body {user repo : Str} {refo : Option Str}
    (hu : '/' ∉ user) (hr : '/' ∉ repo) (hf : GoodRef refo) :
    countSlash (coord user repo ++ refSuffix refo) = 1 := by
  rw [countSlash_append, countSlash_coord hu hr]
  cases refo with
  | none => rfl
  | some r =>
    have : '/' ∉ refSuffix (some r) := by
      intro hc
      rcases List.mem_cons.mp hc with h | h
      · exact absurd h (by decide)
      · exact hf.not_slash h
    rw [countSlash_eq_zero this]

theorem firstAtWord_body {user repo : Str} {refo : Option Str}
    (hu : '@' ∉ user) (hr : '@' ∉ repo) (hf : GoodRef refo) :
    firstAtWord (coord user repo ++ refSuffix refo) = refo := by
  cases refo with
  | none =>
    rw [show refSuffix none = [] from rfl, List.append_nil]
    exact firstAtWord_of_not_at (coord_not_at hu hr)
  | some r =>
    rw [show refSuffix (some r) = '@' :: r from rfl,
        firstAtWord_append (coord_not_at hu hr)]
    exact firstAtWord_ref hf.1 hf.2

theorem lstripSlash_cons_coord {user repo : Str} (hu : GoodSeg user) :
    lstripSlash ('/' :: coord user repo) = coord user repo := by
  obtain ⟨u0, us, rfl⟩ := List.exists_cons_of_ne_nil hu.1
  have hu0 : ¬ u0 = '/' := fun hc => hu.2.1 (by simp [hc])
  rw [lstripSlash_cons_slash]
  show lstripSlash (u0 :: (us ++ '/' :: repo)) = _
  rw [lstripSlash_cons_ne _ hu0]
  simp [coord]

theorem coord_not_at' {user repo : Str} (hu : '@' ∉ user) (hr : '@' ∉ repo) :
    '@' ∉ '/' :: coord user repo := by
  intro hc
  rcases List.mem_cons.mp hc with h | h
  · exact absurd h (by decide)
  · exact coord_not_at hu hr h

theorem full_path_refPath {root user repo : Str} {refo : Option Str}
    (hu : GoodSeg user) (hrA : '@' ∉ repo) (hf : GoodRef refo) :
    _full_path root (refPath user repo refo) = joinPath root (coord user repo) := by
  have hbase : refPath user repo refo = ('/' :: coord user repo) ++ refSuffix refo := by
    simp [refPath, coord]
  cases refo with
  | none =>
    rw [_full_path, hbase, show refSuffix none = [] from rfl, List.append_nil,
        subAtWord_of_not_at (coord_not_at' hu.2.2 hrA), lstripSlash_cons_coord hu]
  | some r =>
    rw [_full_path, hbase, show refSuffix (some r) = '@' :: r from rfl,
        show ('/' :: coord user repo) ++ '@' :: r =
          ('/' :: coord user repo) ++ '@' :: (r ++ []) by simp]
    rw [subAtWord_strip_ref (coord_not_at' hu.2.2 hrA) hf.1 hf.2 (by simp) (by simp),
        List.append_nil, lstripSlash_cons_coord hu]

theorem readdir_eval_step {w : World} {path p fp branch rp : Str}
    (hp : lstripSlash path = p) (hpn : ¬ p = [])
    (hfp : _full_path w.root path = fp)
    (hbr : (firstAtWord p).getD masterBranch = branch)
    (hc1 : countSlash p = 1)
    (habs : w.fs.present fp = false)
    (hrp : repopathOf p = some rp) :
    readdir w path =
      some ⟨([dotE, dotdotE] ++ fsListIf (w.cloneRun rp fp branch w.fs) fp).dedup,
            { w with fs := w.cloneRun rp fp branch w.fs },
            [Event.clone rp fp branch]⟩ := by
  simp only [readdir]
  rw [hp, hfp, hbr, if_neg hpn,
      reposStep_not_depth1 w p (by rw [hc1]; exact Nat.one_ne_zero),
      Option.some_bind]
  rw [cloneStep_run habs hc1 hrp, Option.some_bind]
  simp

theorem readdir_eval_present {w : World} {path p fp : Str}
    (hp : lstripSlash path = p) (hpn : ¬ p = [])
    (hfp : _full_path w.root path = fp)
    (h0 : ¬ countSlash p = 0) (hpres : w.fs.present fp = true) :
    readdir w path = some ⟨([dotE, dotdotE] ++ w.fs.listdir fp).dedup, w, []⟩ := by
  simp only [readdir]
  rw [hp, hfp, if_neg hpn, reposStep_not_depth1 w p h0, Option.some_bind]
  rw [cloneStep_present p fp _ hpres, Option.some_bind]
  simp [fsListIf, hpres]

theorem refPath_body_ne_nil {user repo : Str} (refo : Option Str) (hu : user ≠ []) :
    ¬ coord user repo ++ refSuffix refo = [] := by
  obtain ⟨u0, us, rfl⟩ := List.exists_cons_of_ne_nil hu
  simp [coord]

theorem repopathOf_body {user repo : Str} {refo : Option Str}
    (hu : GoodSeg user) (hrA : '@' ∉ repo) (hf : GoodRef refo) :
    repopathOf (coord user repo ++ refSuffix refo) = some (coord user repo) := by
  cases refo with
  | none =>
    rw [show refSuffix none = [] from rfl, List.append_nil]
    exact repopathOf_no_at (coord_not_at hu.2.2 hrA)
  | some r =>
    rw [show refSuffix (some r) = '@' :: r from rfl]
    exact repopathOf_ref (coord_ne_nil hu.1) (GoodRef.not_at hf)

theorem readdir_refPath_absent (w : World) (user repo : Str) (refo : Option Str)
    (hu : GoodSeg user) (hr : GoodSeg repo) (hf : GoodRef refo)
    (habs : w.fs.present (joinPath w.root (coord user repo)) = false) :
    readdir w (refPath user repo refo) =
      some ⟨([dotE, dotdotE] ++
              fsListIf (w.cloneRun (coord user repo) (joinPath w.root (coord user repo))
                  (refo.getD masterBranch) w.fs)
                (joinPath w.root (coord user repo))).dedup,
            { w with fs := (w.cloneRun (coord user repo) (joinPath w.root (coord user repo))
                (refo.getD masterBranch) w.fs) },
            [Event.clone (coord user repo) (joinPath w.root (coord user repo))
              (refo.getD masterBranch)]⟩ := by
  refine readdir_eval_step (lstripSlash_refPath refo hu) (refPath_body_ne_nil refo hu.1)
      (full_path_refPath hu hr.2.2 hf) ?_ (countSlash_body hu.2.1 hr.2.1 hf) habs
      (repopathOf_body hu hr.2.2 hf)
  rw [firstAtWord_body hu.2.2 hr.2.2 hf]

theorem readdir_refPath_present (w : World) (user repo : Str) (refo : Option Str)
    (hu : GoodSeg user) (hr : GoodSeg repo) (hf : GoodRef refo)
    (hpres : w.fs.present (joinPath w.root (coord user repo)) = true) :
    readdir w (refPath user repo refo) =
      some ⟨([dotE, dotdotE] ++ w.fs.listdir (joinPath w.root (coord user repo))).dedup,
            w, []⟩ := by
  refine readdir_eval_present (lstripSlash_refPath refo hu) (refPath_body_ne_nil refo hu.1)
      (full_path_refPath hu hr.2.2 hf) ?_ hpres
  rw [countSlash_body hu.2.1 hr.2.1 hf]
  exact Nat.one_ne_zero

/-! ### Depth-1 (identity) and depth-0 (mount root) evaluations -/

theorem reposStep_miss {w : World} {u : Str} (h0 : countSlash u = 0)
    (hsu : stripSlashes u = u) (hmiss : lruLookup w.cache u = none)
    (hnames : ∀ s ∈ get_repos_user w.pages u, (seg1 s).isSome = true) :
    reposStep w u = some ((get_repos_user w.pages u).filterMap seg1,
      { w with cache := lruInsert w.cache u (get_repos_user w.pages u) },
      [Event.remote u]) := by
  unfold reposStep
  rw [if_pos h0, hsu, hmiss]
  simp only [mapM_option_eq_filterMap _ hnames]

theorem reposStep_hit {w : World} {u : Str} {v : List Str} (h0 : countSlash u = 0)
    (hsu : stripSlashes u = u) (hhit : lruLookup w.cache u = some v)
    (hnames : ∀ s ∈ v, (seg1 s).isSome = true) :
    reposStep w u = some (v.filterMap seg1,
      { w with cache := lruTouch w.cache u v }, []) := by
  unfold reposStep
  rw [if_pos h0, hsu, hhit]
  simp only [mapM_option_eq_filterMap _ hnames]

theorem readdir_eval_depth1 {w : World} {path u fp : Str} {names : List Str} {w1 : World}
    {ev : List Event}
    (hp : lstripSlash path = u) (hun : ¬ u = [])
    (hfp : _full_path w.root path = fp)
    (h0 : countSlash u = 0)
    (hrs : reposStep w u = some (names, w1, ev)) :
    readdir w path =
      some ⟨([dotE, dotdotE] ++ names ++ fsListIf w1.fs fp).dedup, w1, ev⟩ := by
  simp only [readdir]
  rw [hp, hfp, if_neg hun, hrs, Option.some_bind]
  rw [cloneStep_not_depth2 _ _ _ (by rw [h0]; decide), Option.some_bind]
  simp

theorem lstripSlash_slash_seg {u : Str} (hu : GoodSeg u) : lstripSlash ('/' :: u) = u := by
  obtain ⟨u0, us, rfl⟩ := List.exists_cons_of_ne_nil hu.1
  rw [lstripSlash_cons_slash, lstripSlash_cons_ne _ (fun hc => hu.2.1 (by simp [hc]))]

theorem not_at_slash_seg {u : Str} (hu : GoodSeg u) : '@' ∉ '/' :: u := by
  intro hc
  rcases List.mem_cons.mp hc with h | h
  · exact absurd h (by decide)
  · exact hu.2.2 h

theorem full_path_slash_seg {root : Str} {u : Str} (hu : GoodSeg u) :
    _full_path root ('/' :: u) = joinPath root u := by
  rw [_full_path, subAtWord_of_not_at (not_at_slash_seg hu), lstripSlash_slash_seg hu]

theorem readdir_user_miss (w : World) (u : Str) (hu : GoodSeg u)
    (hmiss : lruLookup w.cache u = none)
    (hnames : ∀ s ∈ get_repos_user w.pages u, (seg1 s).isSome = true) :
    readdir w ('/' :: u) =
      some ⟨([dotE, dotdotE] ++ (get_repos_user w.pages u).filterMap seg1 ++
              fsListIf w.fs (joinPath w.root u)).dedup,
            { w with cache := lruInsert w.cache u (get_repos_user w.pages u) },
            [Event.remote u]⟩ :=
  readdir_eval_depth1 (lstripSlash_slash_seg hu) hu.1 (full_path_slash_seg hu)
    (countSlash_eq_zero hu.2.1)
    (reposStep_miss (countSlash_eq_zero hu.2.1) (stripSlashes_of_not_mem hu.2.1) hmiss hnames)

theorem readdir_user_hit (w : World) (u : Str) (v : List Str) (hu : GoodSeg u)
    (hhit : lruLookup w.cache u = some v)
    (hnames : ∀ s ∈ v, (seg1 s).isSome = true) :
    readdir w ('/' :: u) =
      some ⟨([dotE, dotdotE] ++ v.filterMap seg1 ++ fsListIf w.fs (joinPath w.root u)).dedup,
            { w with cache := lruTouch w.cache u v }, []⟩ :=
  readdir_eval_depth1 (lstripSlash_slash_seg hu) hu.1 (full_path_slash_seg hu)
    (countSlash_eq_zero hu.2.1)
    (reposStep_hit (countSlash_eq_zero hu.2.1) (stripSlashes_of_not_mem hu.2.1) hhit hnames)

theorem readdir_root_eval (w : World) (path : Str) (hp : lstripSlash path = []) :
    readdir w path =
      some ⟨([dotE, dotdotE] ++ w.fs.listdir (joinPath w.root [])).dedup, w, []⟩ := by
  have hall : ∀ a ∈ path, a = '/' := by
    have h2 := List.dropWhile_eq_nil_iff.mp hp
    intro a ha
    simpa using h2 a ha
  have hat : '@' ∉ path := by
    intro hc
    exact absurd (hall '@' hc) (by decide)
  have hfp : _full_path w.root path = joinPath w.root [] := by
    rw [_full_path, subAtWord_of_not_at hat, hp]
  simp only [readdir]
  rw [hp, hfp, if_pos rfl]

/-! ### Concrete worlds for witnesses -/

/-- An all-absent local filesystem. -/
def fsEmpty : FS := ⟨fun _ => false, fun _ => ⟨0, 0, 0, 0, 0, 0, 0, 0⟩, fun _ => []⟩

/-- A local filesystem holding one materialized repository `r/alice/repo`
with a single entry `README`. -/
def fsCloned : FS :=
  ⟨fun q => q = ("r/alice/repo").toList, fun _ => ⟨0, 0, 0, 0, 0, 0, 0, 0⟩,
   fun q => if q = ("r/alice/repo").toList then [("README").toList] else []⟩

/-- A remote with no repositories at all. -/
def pagesNone : Str → Nat → List Str := fun _ _ => []

/-- A world whose clone oracle always succeeds, producing `fsCloned`. -/
def wClone : World := ⟨("r").toList, fsEmpty, [], pagesNone, fun _ _ _ _ => fsCloned⟩

/-- A world whose clone oracle always fails, leaving the filesystem unchanged
(the `git clone` exits nonzero and creates nothing). -/
def wFail : World := ⟨("r").toList, fsEmpty, [], pagesNone, fun _ _ _ fs => fs⟩

/-! ### C1 -/

/-- C1 —: for every depth-2 virtual path `/{user}/{repo}` or
`/{user}/{repo}@{ref}` whose ref-stripped local path is absent, the listing
triggers exactly one clone invocation — targeting the code's primary-branch
default `master` when no qualifier is present, and the ref of the qualifier
otherwise; provided the clone materializes the target (hypothesis `hclone`),
the local path then exists, and a subsequent listing of the same virtual path
returns the real directory contents, performs no event at all (in particular
no clone), and leaves the world unchanged. -/
theorem readdir_clone_once_then_cached (w : World) (user repo : Str) (refo : Option Str)
    (hu : GoodSeg user) (hr : GoodSeg repo) (hf : GoodRef refo)
    (habs : w.fs.present (joinPath w.root (coord user repo)) = false)
    (hclone : (w.cloneRun (coord user repo) (joinPath w.root (coord user repo))
        (refo.getD masterBranch) w.fs).present (joinPath w.root (coord user repo)) = true) :
    ∃ r1 r2 : RD,
      readdir w (refPath user repo refo) = some r1 ∧
      r1.events = [Event.clone (coord user repo) (joinPath w.root (coord user repo))
        (refo.getD masterBranch)] ∧
      r1.world.fs.present (joinPath w.root (coord user repo)) = true ∧
      readdir r1.world (refPath user repo refo) = some r2 ∧
      r2.events = [] ∧
      r2.world = r1.world ∧
      r2.entries.Nodup ∧
      r2.entries.toFinset =
        insert dotE (insert dotdotE
          (r1.world.fs.listdir (joinPath w.root (coord user repo))).toFinset) := by
  have h1 := readdir_refPath_absent w user repo refo hu hr hf habs
  have h2 := readdir_refPath_present
    { w with fs := (w.cloneRun (coord user repo) (joinPath w.root (coord user repo))
        (refo.getD masterBranch) w.fs) } user repo refo hu hr hf hclone
  refine ⟨_, _, h1, rfl, hclone, h2, rfl, rfl, List.nodup_dedup _, ?_⟩
  rw [toFinset_dedup_eq]
  simp [List.toFinset_append, Finset.insert_union]

/-- Witness for C1: in the concrete world `wClone` (empty cache root, clone
oracle that materializes `r/alice/repo`), listing `/alice/repo@dev` clones
once with ref `dev`, and the second listing returns the cloned contents with
no further event. -/
theorem readdir_clone_once_then_cached_witness :
    ∃ r1 r2 : RD,
      readdir wClone (refPath (("alice").toList) (("repo").toList)
        (some (("dev").toList))) = some r1 ∧
      r1.events = [Event.clone (coord (("alice").toList) (("repo").toList))
        (joinPath wClone.root (coord (("alice").toList) (("repo").toList)))
        ((some (("dev").toList)).getD masterBranch)] ∧
      r1.world.fs.present (joinPath wClone.root
        (coord (("alice").toList) (("repo").toList))) = true ∧
      readdir r1.world (refPath (("alice").toList) (("repo").toList)
        (some (("dev").toList))) = some r2 ∧
      r2.events = [] ∧
      r2.world = r1.world ∧
      r2.entries.Nodup ∧
      r2.entries.toFinset =
        insert dotE (insert dotdotE
          (r1.world.fs.listdir (joinPath wClone.root
            (coord (("alice").toList) (("repo").toList)))).toFinset) :=
  readdir_clone_once_then_cached wClone (("alice").toList) (("repo").toList)
    (some (("dev").toList)) (by decide) (by decide) ⟨by decide, by decide⟩
    (by decide) (by decide)

/-! ### C3 -/

/-- C3 counterexample —: the claim says a clone failure surfaces as a
failure of the depth-2 listing.  In the concrete world `wFail` the clone of
`/alice/repo@nope` runs (one clone event with ref `nope`) and materializes
nothing — the target is still absent afterwards — yet the listing does not
fail: the source discards the exit status of `os.system` and the operation
completes, yielding just `.` and `..`. -/
theorem readdir_clone_failure_not_surfaced_cex :
    (readdir wFail (("/alice/repo@nope").toList)).map RD.events =
      some [Event.clone (("alice/repo").toList) (("r/alice/repo").toList)
        (("nope").toList)] ∧
    (readdir wFail (("/alice/repo@nope").toList)).map
      (fun r => r.world.fs.present (("r/alice/repo").toList)) = some false ∧
    (readdir wFail (("/alice/repo@nope").toList)).map RD.entries = some [dotE, dotdotE] ∧
    (readdir wFail (("/alice/repo@nope").toList)).isSome = true := by
  exact ⟨by decide, by decide, by decide, by decide⟩

/-- C3 amended —: a clone failure does not surface as a failure of the
depth-2 listing — the exit status of the clone is discarded and the listing
completes normally.  Exactly one clone with the requested ref is invoked (no
fallback ref); when the failed clone leaves the target path absent, nothing
is treated as materialized and the listing returns exactly `.` and `..`. -/
theorem readdir_clone_failure_ignored (w : World) (user repo : Str) (refo : Option Str)
    (hu : GoodSeg user) (hr : GoodSeg repo) (hf : GoodRef refo)
    (habs : w.fs.present (joinPath w.root (coord user repo)) = false)
    (hfail : (w.cloneRun (coord user repo) (joinPath w.root (coord user repo))
        (refo.getD masterBranch) w.fs).present (joinPath w.root (coord user repo)) = false) :
    ∃ r1 : RD,
      readdir w (refPath user repo refo) = some r1 ∧
      r1.events = [Event.clone (coord user repo) (joinPath w.root (coord user repo))
        (refo.getD masterBranch)] ∧
      r1.entries = [dotE, dotdotE] ∧
      r1.world.fs.present (joinPath w.root (coord user repo)) = false := by
  have h1 := readdir_refPath_absent w user repo refo hu hr hf habs
  refine ⟨_, h1, rfl, ?_, hfail⟩
  show ([dotE, dotdotE] ++ fsListIf _ _).dedup = [dotE, dotdotE]
  rw [show fsListIf (w.cloneRun (coord user repo) (joinPath w.root (coord user repo))
        (refo.getD masterBranch) w.fs) (joinPath w.root (coord user repo)) = [] by
      simp [fsListIf, hfail]]
  rw [List.append_nil]
  exact List.dedup_eq_self.mpr (by decide)

/-- Witness for the amended C3 at `wFail` and `/alice/repo@nope`. -/
theorem readdir_clone_failure_ignored_witness :
    ∃ r1 : RD,
      readdir wFail (refPath (("alice").toList) (("repo").toList)
        (some (("nope").toList))) = some r1 ∧
      r1.events = [Event.clone (coord (("alice").toList) (("repo").toList))
        (joinPath wFail.root (coord (("alice").toList) (("repo").toList)))
        ((some (("nope").toList)).getD masterBranch)] ∧
      r1.entries = [dotE, dotdotE] ∧
      r1.world.fs.present (joinPath wFail.root
        (coord (("alice").toList) (("repo").toList))) = false :=
  readdir_clone_failure_ignored wFail (("alice").toList) (("repo").toList)
    (some (("nope").toList)) (by decide) (by decide) ⟨by decide, by decide⟩
    (by decide) (by decide)

/-! ### C7 -/

/-- C7 —: listing the mount root (any virtual path that is all separators,
in particular `/`) never issues a remote-listing call and never invokes the
clone executor — the event trace is empty — and returns the deduplicated
union of `.`, `..` and the real entries of the Cache Root directory, leaving
the world unchanged. -/
theorem readdir_root_no_remote_no_clone (w : World) (path : Str)
    (hp : lstripSlash path = []) :
    ∃ r : RD,
      readdir w path = some r ∧
      r.events = [] ∧
      r.world = w ∧
      r.entries.Nodup ∧
      r.entries.toFinset =
        insert dotE (insert dotdotE (w.fs.listdir (joinPath w.root [])).toFinset) := by
  refine ⟨_, readdir_root_eval w path hp, rfl, rfl, List.nodup_dedup _, ?_⟩
  rw [toFinset_dedup_eq]
  simp [List.toFinset_append, Finset.insert_union]

/-- Witness for C7 at the mount root `/` of the concrete world `wClone`. -/
theorem readdir_root_no_remote_no_clone_witness :
    ∃ r : RD,
      readdir wClone (("/").toList) = some r ∧
      r.events = [] ∧
      r.world = wClone ∧
      r.entries.Nodup ∧
      r.entries.toFinset =
        insert dotE (insert dotdotE
          (wClone.fs.listdir (joinPath wClone.root [])).toFinset) :=
  readdir_root_no_remote_no_clone wClone (("/").toList) (by decide)

/-! ### C5 and C6 -/

/-- A world with one remote repository `alice/kit` on page 0 of `alice`. -/
def wRemote : World := ⟨("r").toList, fsEmpty, [],
  fun u i => if u = ("alice").toList ∧ i = 0 then [("alice/kit").toList] else [],
  fun _ _ _ fs => fs⟩

/-- C5 —: the first listing of a depth-1 identity path (the identity is not
in the remote-listing cache) issues exactly one remote-listing call for that
identity, and returns the deduplicated union of `.`, `..`, the repository
name of every full name returned remotely, and the identity directory's real
local entries (when the directory exists locally; `fsListIf` is `[]`
otherwise). -/
theorem readdir_user_first_listing (w : World) (u : Str) (hu : GoodSeg u)
    (hmiss : lruLookup w.cache u = none)
    (hnames : ∀ s ∈ get_repos_user w.pages u, (seg1 s).isSome = true) :
    ∃ r : RD,
      readdir w ('/' :: u) = some r ∧
      r.events = [Event.remote u] ∧
      r.entries.Nodup ∧
      r.entries.toFinset =
        insert dotE (insert dotdotE
          (((get_repos_user w.pages u).filterMap seg1).toFinset ∪
            (fsListIf w.fs (joinPath w.root u)).toFinset)) := by
  refine ⟨_, readdir_user_miss w u hu hmiss hnames, rfl, List.nodup_dedup _, ?_⟩
  rw [toFinset_dedup_eq]
  simp [List.toFinset_append, Finset.insert_union]

/-- Witness for C5: in `wRemote` the first listing of `/alice` issues one
remote call and returns `.`, `..` and `kit`. -/
theorem readdir_user_first_listing_witness :
    ∃ r : RD,
      readdir wRemote ('/' :: ("alice").toList) = some r ∧
      r.events = [Event.remote (("alice").toList)] ∧
      r.entries.Nodup ∧
      r.entries.toFinset =
        insert dotE (insert dotdotE
          (((get_repos_user wRemote.pages (("alice").toList)).filterMap seg1).toFinset ∪
            (fsListIf wRemote.fs (joinPath wRemote.root (("alice").toList))).toFinset)) :=
  readdir_user_first_listing wRemote (("alice").toList) (by decide) (by decide) (by decide)

/-- C6 —: directly after a listing of `/u` that populated the bounded
remote-listing cache (`lruInsert` keeps at most `LRU_MAXSIZE = 128` entries,
most recently used first), the entry for `u` is still held; a second listing
of the same identity then issues no remote-listing call at all — its event
trace is empty — and reuses the cached repository list, returning exactly the
same entries as the first listing. -/
theorem readdir_user_second_listing_cached (w : World) (u : Str) (hu : GoodSeg u)
    (hmiss : lruLookup w.cache u = none)
    (hnames : ∀ s ∈ get_repos_user w.pages u, (seg1 s).isSome = true) :
    ∃ r1 r2 : RD,
      readdir w ('/' :: u) = some r1 ∧
      r1.events = [Event.remote u] ∧
      lruLookup r1.world.cache u = some (get_repos_user w.pages u) ∧
      readdir r1.world ('/' :: u) = some r2 ∧
      r2.events = [] ∧
      r2.entries = r1.entries := by
  have h1 := readdir_user_miss w u hu hmiss hnames
  have hheld : lruLookup (lruInsert w.cache u (get_repos_user w.pages u)) u =
      some (get_repos_user w.pages u) := lruLookup_insert _ _ _
  have h2 := readdir_user_hit
    { w with cache := lruInsert w.cache u (get_repos_user w.pages u) } u
    (get_repos_user w.pages u) hu hheld hnames
  exact ⟨_, _, h1, rfl, hheld, h2, rfl, rfl⟩

/-- Witness for C6: in `wRemote`, listing `/alice` twice issues the remote
call only the first time and both listings agree. -/
theorem readdir_user_second_listing_cached_witness :
    ∃ r1 r2 : RD,
      readdir wRemote ('/' :: ("alice").toList) = some r1 ∧
      r1.events = [Event.remote (("alice").toList)] ∧
      lruLookup r1.world.cache (("alice").toList) =
        some (get_repos_user wRemote.pages (("alice").toList)) ∧
      readdir r1.world ('/' :: ("alice").toList) = some r2 ∧
      r2.events = [] ∧
      r2.entries = r1.entries :=
  readdir_user_second_listing_cached wRemote (("alice").toList) (by decide) (by decide)
    (by decide)

/-! ### C4 and C9 -/

theorem lstripSlash_slash_user {user : Str} (x : Str) (hu : GoodSeg user) :
    lstripSlash (('/' :: user) ++ x) = user ++ x := by
  obtain ⟨u0, us, rfl⟩ := List.exists_cons_of_ne_nil hu.1
  have hu0 : ¬ u0 = '/' := fun hc => hu.2.1 (by simp [hc])
  rw [show ('/' :: (u0 :: us)) ++ x = '/' :: (u0 :: (us ++ x)) by simp]
  rw [lstripSlash_cons_slash, lstripSlash_cons_ne _ hu0]
  simp

theorem not_at_prefix2 {user repo : Str} (hu : '@' ∉ user) (hr : '@' ∉ repo) :
    '@' ∉ ('/' :: user) ++ ('/' :: repo) := by
  intro hc
  rcases List.mem_append.mp hc with h | h
  · rcases List.mem_cons.mp h with h | h
    · exact absurd h (by decide)
    · exact hu h
  · rcases List.mem_cons.mp h with h | h
    · exact absurd h (by decide)
    · exact hr h

theorem full_path_plain {root user repo rest : Str} (hu : GoodSeg user)
    (hrA : '@' ∉ repo) (hrestA : '@' ∉ rest) :
    _full_path root (('/' :: user) ++ ('/' :: repo) ++ rest) =
      joinPath root (user ++ ('/' :: repo) ++ rest) := by
  have hat : '@' ∉ ('/' :: user) ++ ('/' :: repo) ++ rest := by
    intro hc
    rw [show ('/' :: user) ++ ('/' :: repo) ++ rest =
      '/' :: (user ++ ('/' :: (repo ++ rest))) by simp] at hc
    rcases List.mem_cons.mp hc with h | h
    · exact absurd h (by decide)
    rcases List.mem_append.mp h with h | h
    · exact hu.2.2 h
    rcases List.mem_cons.mp h with h | h
    · exact absurd h (by decide)
    rcases List.mem_append.mp h with h | h
    · exact hrA h
    · exact hrestA h
  rw [_full_path, subAtWord_of_not_at hat,
      show ('/' :: user) ++ ('/' :: repo) ++ rest =
        ('/' :: user) ++ (('/' :: repo) ++ rest) by simp,
      lstripSlash_slash_user (('/' :: repo) ++ rest) hu]
  simp

theorem full_path_with_ref {root user repo rref rest : Str} (hu : GoodSeg user)
    (hrA : '@' ∉ repo) (hrf : rref ≠ [] ∧ ∀ c ∈ rref, isWordChar c = true)
    (hrest : rest = [] ∨ rest.head? = some '/') (hrestA : '@' ∉ rest) :
    _full_path root (('/' :: user) ++ ('/' :: repo) ++ ('@' :: rref) ++ rest) =
      joinPath root (user ++ ('/' :: repo) ++ rest) := by
  have hL : '@' ∉ ('/' :: user) ++ ('/' :: repo) := not_at_prefix2 hu.2.2 hrA
  have hm : ∀ a ∈ rest.head?, isWordChar a = false := by
    intro a ha
    rcases hrest with h | h
    · rw [h] at ha
      cases ha
    · rw [h] at ha
      have : a = '/' := by simpa using ha.symm
      rw [this]
      decide
  rw [_full_path,
      show ('/' :: user) ++ ('/' :: repo) ++ ('@' :: rref) ++ rest =
        (('/' :: user) ++ ('/' :: repo)) ++ '@' :: (rref ++ rest) by simp,
      subAtWord_strip_ref hL hrf.1 hrf.2 hm hrestA,
      show (('/' :: user) ++ ('/' :: repo)) ++ rest =
        ('/' :: user) ++ (('/' :: repo) ++ rest) by simp,
      lstripSlash_slash_user (('/' :: repo) ++ rest) hu]
  simp

/-- C4 —: path resolution strips a segment-1 ref qualifier — resolving
`/{user}/{repo}@{ref}{rest}` gives the same local path as resolving
`/{user}/{repo}{rest}` — and any two refs of the same repository resolve to
the identical local path, so all refs of one repository collapse onto one
cache location. -/
theorem full_path_strips_and_collapses (root user repo ref1 ref2 rest : Str)
    (hu : GoodSeg user) (hrA : '@' ∉ repo)
    (h1 : ref1 ≠ [] ∧ ∀ c ∈ ref1, isWordChar c = true)
    (h2 : ref2 ≠ [] ∧ ∀ c ∈ ref2, isWordChar c = true)
    (hrest : rest = [] ∨ rest.head? = some '/') (hrestA : '@' ∉ rest) :
    _full_path root (('/' :: user) ++ ('/' :: repo) ++ ('@' :: ref1) ++ rest) =
      _full_path root (('/' :: user) ++ ('/' :: repo) ++ rest) ∧
    _full_path root (('/' :: user) ++ ('/' :: repo) ++ ('@' :: ref1) ++ rest) =
      _full_path root (('/' :: user) ++ ('/' :: repo) ++ ('@' :: ref2) ++ rest) := by
  constructor
  · rw [full_path_with_ref hu hrA h1 hrest hrestA, full_path_plain hu hrA hrestA]
  · rw [full_path_with_ref hu hrA h1 hrest hrestA, full_path_with_ref hu hrA h2 hrest hrestA]

/-- Witness for C4: `/alice/repo@dev/src`, `/alice/repo@main/src` and
`/alice/repo/src` all resolve to the same local path. -/
theorem full_path_strips_and_collapses_witness :
    _full_path (("r").toList)
        (('/' :: ("alice").toList) ++ ('/' :: ("repo").toList) ++
          ('@' :: ("dev").toList) ++ ("/src").toList) =
      _full_path (("r").toList)
        (('/' :: ("alice").toList) ++ ('/' :: ("repo").toList) ++ ("/src").toList) ∧
    _full_path (("r").toList)
        (('/' :: ("alice").toList) ++ ('/' :: ("repo").toList) ++
          ('@' :: ("dev").toList) ++ ("/src").toList) =
      _full_path (("r").toList)
        (('/' :: ("alice").toList) ++ ('/' :: ("repo").toList) ++
          ('@' :: ("main").toList) ++ ("/src").toList) :=
  full_path_strips_and_collapses (("r").toList) (("alice").toList) (("repo").toList)
    (("dev").toList) (("main").toList) (("/src").toList)
    (by decide) (by decide) ⟨by decide, by decide⟩ ⟨by decide, by decide⟩
    (Or.inr (by decide)) (by decide)

/-- Test that the ref pattern `@\w+` has no match in a string: no `'@'` is
immediately followed by a word character (a malformed ref sequence). -/
def noRefMatchB : List Char → Bool
  | [] => true
  | [_] => true
  | a :: b :: t => (!(a = '@' && isWordChar b)) && noRefMatchB (b :: t)

/-- The ref pattern `@\w+` has no match in `p`. -/
abbrev noRefMatch (p : Str) : Prop := noRefMatchB p = true

theorem subAtWord_of_noRefMatch {l : Str} : noRefMatch l → subAtWord l = l := by
  unfold subAtWord
  induction l with
  | nil => intro _; rfl
  | cons a t ih =>
    intro h
    cases t with
    | nil =>
      by_cases ha : a = '@'
      · rw [ha]
        rfl
      · rw [subAux_false_cons_ne _ ha]
        rfl
    | cons b t2 =>
      have h : ((!(a = '@' && isWordChar b)) && noRefMatchB (b :: t2)) = true := h
      rw [Bool.and_eq_true, Bool.not_eq_true'] at h
      by_cases ha : a = '@'
      · have hb : ¬ isWordChar b = true := by
          intro hw
          rw [ha, hw] at h
          exact absurd h.1 (by decide)
        rw [ha]
        rw [show subAux false ('@' :: b :: t2) = '@' :: subAux false (b :: t2) by
          simp [subAux, hb]]
        rw [ih h.2]
      · rw [subAux_false_cons_ne _ ha, ih h.2]

theorem lstripSlash_head_ne (l : Str) : (lstripSlash l).head? ≠ some '/' := by
  induction l with
  | nil => simp [lstripSlash]
  | cons a t ih =>
    by_cases ha : a = '/'
    · rw [ha, lstripSlash_cons_slash]
      exact ih
    · rw [lstripSlash_cons_ne _ ha]
      simp [ha]

/-- C9 —: path resolution is total over input strings — for every input
(and every cache root) it produces a result with no error condition: the
result is the cache root joined (`os.path.join`) with a relative part whose
leading separator has been normalized away; and when the input is a
malformed ref sequence (no `'@'` followed by a word character, so `@\w+` has
no match) the literal text is kept as the path segment, the resolver
degrading to a plain lstrip-and-join. -/
theorem full_path_total_normalizes (root path : Str) :
    (∃ rel, _full_path root path = joinPath root rel ∧ rel.head? ≠ some '/') ∧
    (noRefMatch path → _full_path root path = joinPath root (lstripSlash path)) := by
  constructor
  · exact ⟨lstripSlash (subAtWord path), rfl, lstripSlash_head_ne _⟩
  · intro h
    rw [_full_path, subAtWord_of_noRefMatch h]

/-- Witness for C9 at the malformed input `/a@/b@@.`: the pattern has no
match there and the resolver keeps the text literally. -/
theorem full_path_total_normalizes_witness :
    noRefMatch (("/a@/b@@.").toList) ∧
    _full_path (("r").toList) (("/a@/b@@.").toList) =
      joinPath (("r").toList) (lstripSlash (("/a@/b@@.").toList)) :=
  ⟨by decide,
   (full_path_total_normalizes (("r").toList) (("/a@/b@@.").toList)).2 (by decide)⟩

/-! ### C2 and C10 -/

/-- On any absent resolved path, `getattr` returns the one-entry dict
`{'st_mode': 0o40755}`: the comprehension ranges over the instance
`__dict__`, which after `set_isdir` holds exactly the `st_mode` entry
`0o755 | S_IFDIR = 16877`. -/
theorem getattr_absent_eq {fs : FS} {root path : Str}
    (habs : fs.present (_full_path root path) = false) :
    getattr fs root path = [("st_mode", 16877)] := by
  simp only [getattr]
  rw [habs, if_neg (by decide : ¬ false = true), if_pos (Nat.zero_le _)]
  decide

/-- C2 —: (a) every virtual path of depth ≥ 1 whose resolved local path is
absent gets synthesized metadata marking a directory with the fixed
permission mode `0o755` (the returned dict is exactly the instance
`__dict__` entry `st_mode = 0o40755`; the size and time fields are observed
as zero — they are absent from the dict and the FUSE bridge zero-fills the
stat structure, cf. `dictGet`); (b) every path whose resolved local path is
present gets the storage's real eight-field metadata unchanged — the
synthesizer is bypassed. -/
theorem getattr_synthesizes_c2 (fs : FS) (root : Str) :
    (∀ path : Str, 1 ≤ depthOf path →
      fs.present (_full_path root path) = false →
      getattr fs root path = [("st_mode", 16877)] ∧
      dictGet (getattr fs root path) ("st_mode") &&& S_IFMT = S_IFDIR ∧
      dictGet (getattr fs root path) ("st_mode") % 4096 = 493 ∧
      dictGet (getattr fs root path) ("st_size") = 0 ∧
      dictGet (getattr fs root path) ("st_atime") = 0 ∧
      dictGet (getattr fs root path) ("st_mtime") = 0 ∧
      dictGet (getattr fs root path) ("st_ctime") = 0) ∧
    (∀ path : Str, fs.present (_full_path root path) = true →
      getattr fs root path = (fs.stat (_full_path root path)).dict) := by
  constructor
  · intro path hd habs
    have hg := getattr_absent_eq habs
    refine ⟨hg, ?_, ?_, ?_, ?_, ?_, ?_⟩ <;> rw [hg] <;> decide
  · intro path hpres
    simp only [getattr]
    rw [hpres, if_pos rfl]

/-- A local filesystem with real metadata, present only at `gr/x`. -/
def fsStat : FS := ⟨fun q => q = ("gr/x").toList, fun _ => ⟨1, 2, 3, 4, 5, 6, 7, 8⟩,
  fun _ => []⟩

/-- Witness for C2: the absent depth-2 path `/alice/repo` gets the
synthesized directory dict; the present path `/x` gets the storage's
metadata unchanged. -/
theorem getattr_synthesizes_c2_witness :
    (1 ≤ depthOf (("/alice/repo").toList) ∧
      fsStat.present (_full_path (("gr").toList) (("/alice/repo").toList)) = false ∧
      getattr fsStat (("gr").toList) (("/alice/repo").toList) = [("st_mode", 16877)]) ∧
    (fsStat.present (_full_path (("gr").toList) (("/x").toList)) = true ∧
      getattr fsStat (("gr").toList) (("/x").toList) =
        (fsStat.stat (_full_path (("gr").toList) (("/x").toList))).dict) :=
  ⟨⟨by decide, by decide,
    ((getattr_synthesizes_c2 fsStat (("gr").toList)).1 (("/alice/repo").toList)
      (by decide) (by decide)).1⟩,
   ⟨by decide,
    (getattr_synthesizes_c2 fsStat (("gr").toList)).2 (("/x").toList) (by decide)⟩⟩

/-- C10 —: every virtual path absent from local storage — at any depth,
including depth ≥ 3 paths that denote files inside a not-yet-cloned
repository — is reported by the attribute query as a directory and never as
a regular file, because the guard `path.count("/") >= 0` of the source is
satisfied by every path (third conjunct), so `set_isdir` always runs. -/
theorem getattr_absent_always_dir (fs : FS) (root path : Str)
    (habs : fs.present (_full_path root path) = false) :
    dictGet (getattr fs root path) ("st_mode") &&& S_IFMT = S_IFDIR ∧
    ¬ dictGet (getattr fs root path) ("st_mode") &&& S_IFMT = S_IFREG ∧
    0 ≤ countSlash path := by
  have hg := getattr_absent_eq habs
  refine ⟨?_, ?_, Nat.zero_le _⟩ <;> rw [hg] <;> decide

/-- Witness for C10 at the depth-4 file path `/alice/repo/src/main.py` of an
empty cache: the synthesized metadata is a directory, not a regular file. -/
theorem getattr_absent_always_dir_witness :
    fsEmpty.present (_full_path (("r").toList) (("/alice/repo/src/main.py").toList)) =
      false ∧
    (dictGet (getattr fsEmpty (("r").toList) (("/alice/repo/src/main.py").toList))
        ("st_mode") &&& S_IFMT = S_IFDIR ∧
      ¬ dictGet (getattr fsEmpty (("r").toList) (("/alice/repo/src/main.py").toList))
        ("st_mode") &&& S_IFMT = S_IFREG ∧
      0 ≤ countSlash (("/alice/repo/src/main.py").toList)) :=
  ⟨by decide, getattr_absent_always_dir fsEmpty (("r").toList)
    (("/alice/repo/src/main.py").toList) (by decide)⟩

/-! ### C8 -/

theorem collectPages_mem (pg : Nat → List Str) (x : Str) :
    ∀ fuel start i : Nat, i < fuel → (∀ j, j ≤ i → pg (start + j) ≠ []) →
      x ∈ pg (start + i) → x ∈ collectPages pg fuel start := by
  intro fuel
  induction fuel with
  | zero => intro start i hi; exact absurd hi (Nat.not_lt_zero i)
  | succ n ih =>
    intro start i hi hne hx
    have h0 : ¬ pg start = [] := by
      have := hne 0 (Nat.zero_le i)
      simpa using this
    rw [collectPages, if_neg h0]
    rcases Nat.eq_zero_or_pos i with h | h
    · subst h
      apply List.mem_append.mpr
      left
      simpa using hx
    · obtain ⟨m, rfl⟩ : ∃ m, i = m + 1 := ⟨i - 1, by omega⟩
      apply List.mem_append.mpr
      right
      refine ih (start + 1) m (by omega) ?_ ?_
      · intro j hj
        have := hne (j + 1) (by omega)
        rw [show start + (j + 1) = start + 1 + j by omega] at this
        exact this
      · rw [show start + 1 + m = start + (m + 1) by omega]
        exact hx

/-- C8 amended: `get_repos_user` returns the in-order concatenation of
the identity's result pages, reading at most the first 20 pages and stopping
at the first empty page; every repository on a reached page (index below 20,
all pages up to it nonempty) appears in the result.  Pages beyond the
twentieth are never read, and no deduplication is applied. -/
theorem get_repos_user_reaches (pages : Str → Nat → List Str) (u : Str) (i : Nat)
    (x : Str) (hi : i < 20) (hne : ∀ j, j ≤ i → pages u j ≠ [])
    (hx : x ∈ pages u i) : x ∈ get_repos_user pages u := by
  have h := collectPages_mem (pages u) x 20 0 i hi (by simpa using hne)
    (by simpa using hx)
  simpa [get_repos_user] using h

/-- Witness for the amended C8: the repository `alice/kit` on page 0 of
`wRemote` appears in the result. -/
theorem get_repos_user_reaches_witness :
    (("alice/kit").toList) ∈ get_repos_user wRemote.pages (("alice").toList) :=
  get_repos_user_reaches wRemote.pages (("alice").toList) 0 (("alice/kit").toList)
    (by decide)
    (by
      intro j hj
      have hj0 : j = 0 := Nat.le_zero.mp hj
      rw [hj0]
      decide)
    (by decide)

/-- The paginated remote of the C8 counterexample: page `i` holds the single
repository name made of the character of code `48 + i`, so every page is
nonempty and the pages are pairwise distinct. -/
def cPages : Str → Nat → List Str := fun _ i => [[Char.ofNat (48 + i)]]

/-- C8 counterexample —: the claim says the listing is complete — no page
of results owned by the identity is omitted.  Under `cPages` the first 21
pages are all nonempty and page 20 holds the name `['D']` (code 68), yet the
pagination loop of `get_repos_user` reads only pages 0–19, so that name is
omitted from the result. -/
theorem get_repos_user_omits_page_cex :
    (∀ j ∈ List.range 21, cPages (("alice").toList) j ≠ []) ∧
    [Char.ofNat 68] ∈ cPages (("alice").toList) 20 ∧
    [Char.ofNat 68] ∉ get_repos_user cPages (("alice").toList) := by
  exact ⟨by decide, by decide, by decide⟩
